import Mathlib

set_option maxHeartbeats 1000000

/-!
Shallow embedding of the Conway board engine from src/main.rs, together with
theorems settling the specification claims.  Machine integers of the source
(usize, i32) are modelled as Nat and Int; fallible operations return RResult,
whose third constructor models a runtime abort of the process
(an out-of-range vector write).
-/

/-- Cell state of a board cell: Alive or Dead (enum CellState). -/
inductive CellState where
  | Alive : CellState
  | Dead : CellState
deriving DecidableEq, Repr

/-- A Conway board: flat row-major cell vector plus dimensions
(struct Conway).  The rng field of the Rust struct is modelled
separately, as an explicit stream of picks fed to generate_board. -/
structure Conway where
  cells : List CellState
  width : Nat
  height : Nat
deriving DecidableEq, Repr

/-- Outcome of a fallible Rust operation: Ok value, Err message, or a
runtime abort from an out-of-range vector write (crash). -/
inductive RResult (α : Type) where
  | ok : α → RResult α
  | err : String → RResult α
  | crash : RResult α
deriving DecidableEq, Repr

/-- The question-mark operator of Rust: propagate Err and aborts, continue on Ok. -/
def bindR {α β : Type} (r : RResult α) (f : α → RResult β) : RResult β :=
  match r with
  | .ok a => f a
  | .err e => .err e
  | .crash => .crash

/-- The 8 Moore-neighborhood offsets (const NEIGHBOR_COORDINATES). -/
def NEIGHBOR_COORDINATES : List (Int × Int) :=
  [(-1, -1), (0, -1), (1, -1), (-1, 0), (1, 0), (-1, 1), (0, 1), (1, 1)]

/-- Conway::new - a board of width*height dead cells. -/
def Conway.new (width height : Nat) : Conway :=
  { cells := List.replicate (width * height) CellState.Dead
    width := width
    height := height }

/-- Conway::get_cell - self.cells.get(x + y * self.width).copied(). -/
def get_cell (b : Conway) (x y : Nat) : Option CellState :=
  b.cells.get? (x + y * b.width)

/-- Conway::set_cell - errs when the linear index exceeds the vector length
(a strict greater-than test); otherwise writes self.cells[x + y*width],
which aborts when the index equals the length. -/
def set_cell (b : Conway) (x y : Nat) (state : CellState) : RResult Conway :=
  if x + y * b.width > b.cells.length then
    .err "Coordinate pair was out of bounds for board size"
  else if x + y * b.width < b.cells.length then
    .ok { b with cells := b.cells.set (x + y * b.width) state }
  else
    .crash

/-- Conway::revive_cell - looks the cell up by linear index; Err when absent,
Ok without mutation when already alive, otherwise set_cell to Alive. -/
def revive_cell (b : Conway) (x y : Nat) : RResult Conway :=
  match b.cells.get? (x + y * b.width) with
  | none => .err "The coordinate pair was out of bounds."
  | some cell =>
    if cell = CellState.Alive then
      .ok b
    else
      set_cell b x y CellState.Alive

/-- One iteration of the neighbor-counting loop of Conway::neighbors: skip
the offset when either resulting coordinate is negative, otherwise look the
candidate up with get_cell and add one when it is alive. -/
def countStep (b : Conway) (x y : Nat) (acc : Nat) (off : Int × Int) : Nat :=
  let neighbor_x : Int := (x : Int) + off.1
  let neighbor_y : Int := (y : Int) + off.2
  if neighbor_x < 0 ∨ neighbor_y < 0 then acc
  else
    match get_cell b neighbor_x.toNat neighbor_y.toNat with
    | some CellState.Alive => acc + 1
    | some CellState.Dead => acc
    | none => acc

/-- The neighbor-counting loop of Conway::neighbors over all 8 offsets. -/
def neighborCount (b : Conway) (x y : Nat) : Nat :=
  NEIGHBOR_COORDINATES.foldl (countStep b x y) 0

/-- Conway::neighbors - errs when the input coordinate itself looks up to
none, else returns the loop count. -/
def neighbors (b : Conway) (x y : Nat) : RResult Nat :=
  if (get_cell b x y).isNone then .err "Coordinate pair was invalid."
  else .ok (neighborCount b x y)

/-- The per-cell transition decision of Conway::tick: an alive cell with a
neighbor count outside 2..=3 dies, a dead cell with exactly 3 becomes alive,
anything else records no change. -/
def cellChange (cell : CellState) (n : Nat) : Option CellState :=
  match cell with
  | CellState.Alive => if ¬ (2 ≤ n ∧ n ≤ 3) then some CellState.Dead else none
  | CellState.Dead => if n = 3 then some CellState.Alive else none

/-- One body iteration of the scan in Conway::tick: count neighbors, read the
cell, append the transition (if any) to the changed list. -/
def scanCell (b : Conway) (x y : Nat) (changed : List (Nat × Nat × CellState)) :
    RResult (List (Nat × Nat × CellState)) :=
  bindR (neighbors b x y) fun n =>
    match get_cell b x y with
    | none => .err "Somehow the index for the cells were off."
    | some cell =>
      match cellChange cell n with
      | some s => .ok (changed ++ [(x, y, s)])
      | none => .ok changed

/-- The inner (x) loop of the scan in Conway::tick. -/
def scanRow (b : Conway) (y : Nat) (acc : RResult (List (Nat × Nat × CellState))) :
    RResult (List (Nat × Nat × CellState)) :=
  (List.range b.width).foldl (fun a x => bindR a fun l => scanCell b x y l) acc

/-- The outer (y) loop of the scan in Conway::tick, over the unmodified board. -/
def scanGrid (b : Conway) : RResult (List (Nat × Nat × CellState)) :=
  (List.range b.height).foldl (fun a y => scanRow b y a) (.ok [])

/-- The apply loop of Conway::tick: write every recorded change with set_cell. -/
def applyChanges (b : Conway) : List (Nat × Nat × CellState) → RResult Conway
  | [] => .ok b
  | (x, y, s) :: rest => bindR (set_cell b x y s) fun b2 => applyChanges b2 rest

/-- Conway::tick - scan the whole grid read-only collecting transitions,
return false (board untouched) when none, otherwise apply them and return true. -/
def tick (b : Conway) : RResult (Bool × Conway) :=
  bindR (scanGrid b) fun changed =>
    if changed.isEmpty then .ok (false, b)
    else bindR (applyChanges b changed) fun b2 => .ok (true, b2)

/-- Outcome of generate_board over a finite pick stream: done, Err, abort, or
spin - the retry loop consumed the whole stream without finishing, modelling
an execution that is still looping. -/
inductive GenRes where
  | ok : Conway → List (Nat × Nat) → GenRes
  | err : String → GenRes
  | crash : GenRes
  | spin : GenRes
deriving DecidableEq, Repr

/-- The inner retry loop of Conway::generate_board: draw a coordinate pair
from the pick stream (modelling successive rng.gen_range outputs), skip it
when it looks up to none or to an alive cell, otherwise revive it and stop. -/
def genInner (b : Conway) : List (Nat × Nat) → GenRes
  | [] => .spin
  | (x, y) :: rest =>
    match get_cell b x y with
    | none => genInner b rest
    | some CellState.Alive => genInner b rest
    | some CellState.Dead =>
      match set_cell b x y CellState.Alive with
      | .ok b2 => .ok b2 rest
      | .err e => .err e
      | .crash => .crash

/-- Conway::generate_board - repeat the inner retry loop once per requested
cell, with no prior capacity check. -/
def generate_board (b : Conway) : Nat → List (Nat × Nat) → GenRes
  | 0, picks => .ok b picks
  | n + 1, picks =>
    match genInner b picks with
    | .ok b2 rest => generate_board b2 n rest
    | .err e => .err e
    | .crash => .crash
    | .spin => .spin

/-- enum Pattern. -/
inductive Pattern where
  | Block : Pattern
  | Blinker : Pattern
  | Beehive : Pattern
  | Toad : Pattern
  | Loaf : Pattern
  | Beacon : Pattern
  | Tub : Pattern
deriving DecidableEq, Repr

/-- Pattern::coordinates. -/
def Pattern.coordinates : Pattern → List (Nat × Nat)
  | .Block => [(2, 2), (3, 2), (2, 3), (3, 3)]
  | .Blinker => [(2, 3), (3, 3), (4, 3)]
  | .Beehive => [(3, 2), (4, 2), (2, 3), (4, 3), (3, 4), (4, 4)]
  | .Loaf => [(3, 2), (4, 2), (2, 3), (4, 3), (3, 4), (4, 4), (4, 5)]
  | .Toad => [(4, 2), (2, 3), (5, 3), (2, 4), (5, 4), (3, 5)]
  | .Beacon => [(2, 2), (3, 2), (2, 3), (5, 4), (4, 5), (5, 5)]
  | .Tub => [(3, 2), (2, 3), (4, 2), (3, 4)]

/-- Pattern::size. -/
def Pattern.size : Pattern → Nat × Nat
  | .Block => (4, 4)
  | .Blinker => (5, 5)
  | .Tub => (5, 5)
  | .Beehive => (6, 5)
  | .Loaf => (6, 6)
  | .Toad => (6, 6)
  | .Beacon => (6, 6)

/-- The pattern-seeding loop of main: revive every coordinate of the pattern
in order, propagating failures. -/
def seedCoords (b : Conway) : List (Nat × Nat) → RResult Conway
  | [] => .ok b
  | (x, y) :: rest => bindR (revive_cell b x y) fun b2 => seedCoords b2 rest

/-- Modelled from the spec: count_live_neighbors as section 4.1 describes it -
examine the 8 Moore offsets and skip any candidate coordinate that falls
outside the grid, in either direction, never wrapping; count the alive ones. -/
def specNeighborCount (b : Conway) (x y : Nat) : Nat :=
  NEIGHBOR_COORDINATES.foldl
    (fun acc off =>
      let nx : Int := (x : Int) + off.1
      let ny : Int := (y : Int) + off.2
      if nx < 0 ∨ ny < 0 ∨ (b.width : Int) ≤ nx ∨ (b.height : Int) ≤ ny then acc
      else
        match get_cell b nx.toNat ny.toNat with
        | some CellState.Alive => acc + 1
        | _ => acc)
    0

/-- The basic well-formedness invariant: the cell vector has exactly
width * height entries, as Conway::new establishes. -/
def WF (b : Conway) : Prop := b.cells.length = b.width * b.height

/-- A 2 x 2 board whose only live cell sits at coordinate (0, 1),
flat index 2. -/
def wrapBoard : Conway :=
  { cells := [CellState.Dead, CellState.Dead, CellState.Alive, CellState.Dead]
    width := 2
    height := 2 }

/-- A 1 x 1 board holding a single dead cell. -/
def dead1 : Conway := { cells := [CellState.Dead], width := 1, height := 1 }

/-- A 1 x 1 board holding a single live cell. -/
def alive1 : Conway := { cells := [CellState.Alive], width := 1, height := 1 }

/-- The cell value an in-bounds lookup returns (defaulting to dead; the
default is never used at in-bounds coordinates of a well-formed board). -/
def cellD (b : Conway) (x y : Nat) : CellState := (get_cell b x y).getD CellState.Dead

/-- The transition the scan of tick records for one coordinate, if any. -/
def changeAt (b : Conway) (x y : Nat) : Option (Nat × Nat × CellState) :=
  (cellChange (cellD b x y) (neighborCount b x y)).map (fun s => (x, y, s))

/-- The list of transitions the full scan of tick collects, in scan order. -/
def changesOf (b : Conway) : List (Nat × Nat × CellState) :=
  (List.range b.height).flatMap
    (fun y => (List.range b.width).filterMap (fun x => changeAt b x y))

/-- The linear index a recorded transition writes to. -/
def keyOf (w : Nat) (e : Nat × Nat × CellState) : Nat := e.1 + e.2.1 * w

/-- Pure view of the apply loop of tick: successive in-place list writes. -/
def applyCells (w : Nat) (cs : List CellState) (l : List (Nat × Nat × CellState)) :
    List CellState :=
  l.foldl (fun cs2 e => cs2.set (keyOf w e) e.2.2) cs

/-- The board tick hands back on a well-formed board: the original cells with
every recorded transition written. -/
def postTick (b : Conway) : Conway :=
  { b with cells := applyCells b.width b.cells (changesOf b) }

/-- A board whose live set is given by a coordinate predicate, row-major. -/
def pboard (P : Nat → Nat → Bool) (w h : Nat) : Conway :=
  { cells := (List.range (w * h)).map
      (fun i => if P (i % w) (i / w) then CellState.Alive else CellState.Dead)
    width := w
    height := h }

/-- One term of the pure Moore count of a predicate board: 0 when the guard
holds (candidate coordinate negative), else 1 exactly when the live predicate
holds at the candidate. -/
def mTerm (g : Bool) (P : Nat → Nat → Bool) (u v : Nat) : Nat :=
  if g then 0 else if P u v then 1 else 0

/-- Pure Moore count of a live predicate whose support stays away from the
grid edges, written to mirror the 8 offsets of the counting loop. -/
def mooreCnt (P : Nat → Nat → Bool) (x y : Nat) : Nat :=
  mTerm (decide (x = 0 ∨ y = 0)) P (x - 1) (y - 1) +
  mTerm (decide (y = 0)) P x (y - 1) +
  mTerm (decide (y = 0)) P (x + 1) (y - 1) +
  mTerm (decide (x = 0)) P (x - 1) y +
  mTerm false P (x + 1) y +
  mTerm (decide (x = 0)) P (x - 1) (y + 1) +
  mTerm false P x (y + 1) +
  mTerm false P (x + 1) (y + 1)

/-- The horizontal Blinker live set: row 3, columns 2..4 (the coordinates of
Pattern::Blinker). -/
def blinkH (u v : Nat) : Bool := decide (v = 3 ∧ 2 ≤ u ∧ u ≤ 4)

/-- The vertical Blinker live set: column 3, rows 2..4. -/
def blinkV (u v : Nat) : Bool := decide (u = 3 ∧ 2 ≤ v ∧ v ≤ 4)

/-- The next state of a cell of a predicate board, computed purely: the rule
of tick applied to the predicate cell and its pure Moore count. -/
def stepOf (P : Nat → Nat → Bool) (x y : Nat) : CellState :=
  match cellChange (if P x y then CellState.Alive else CellState.Dead)
      (mooreCnt P x y) with
  | some s => s
  | none => if P x y then CellState.Alive else CellState.Dead

example : WF (Conway.new 3 4) := by
  simp [WF, Conway.new]

example : tick dead1 = RResult.ok (false, dead1) := by decide

example : neighbors wrapBoard 1 0 = RResult.ok 2 := by decide

example : specNeighborCount wrapBoard 1 0 = 1 := by decide

/-- In-bounds coordinates give a linear index below the cell count. -/
theorem idx_lt {x y w h : Nat} (hx : x < w) (hy : y < h) : x + y * w < w * h := by
  have h1 : x + y * w < w + y * w := Nat.add_lt_add_right hx (y * w)
  have h2 : w + y * w = (y + 1) * w := by ring
  have h3 : (y + 1) * w ≤ h * w := Nat.mul_le_mul_right w hy
  calc x + y * w < (y + 1) * w := h2 ▸ h1
    _ ≤ h * w := h3
    _ = w * h := Nat.mul_comm h w

/-- Linear indices grow strictly with the row, given an in-bounds column. -/
theorem key_lt {w x1 y1 x2 y2 : Nat} (hx1 : x1 < w) (hy : y1 < y2) :
    x1 + y1 * w < x2 + y2 * w := by
  have s1 : x1 + y1 * w < w + y1 * w := Nat.add_lt_add_right hx1 (y1 * w)
  have s2 : w + y1 * w = (y1 + 1) * w := by ring
  have s3 : (y1 + 1) * w ≤ y2 * w := Nat.mul_le_mul_right w hy
  calc x1 + y1 * w < (y1 + 1) * w := s2 ▸ s1
    _ ≤ y2 * w := s3
    _ ≤ x2 + y2 * w := Nat.le_add_left _ _

/-- The linear index determines the coordinate pair, within bounds. -/
theorem key_inj {w x1 y1 x2 y2 : Nat} (h1 : x1 < w) (h2 : x2 < w)
    (he : x1 + y1 * w = x2 + y2 * w) : x1 = x2 ∧ y1 = y2 := by
  rcases Nat.lt_trichotomy y1 y2 with h | h | h
  · exact absurd he (Nat.ne_of_lt (key_lt h1 h))
  · subst h
    exact ⟨Nat.add_right_cancel he, rfl⟩
  · exact absurd he.symm (Nat.ne_of_lt (key_lt h2 h))

/-- On a well-formed board an in-bounds lookup always yields a cell. -/
theorem get_cell_of_lt {b : Conway} (hwf : WF b) {x y : Nat}
    (hx : x < b.width) (hy : y < b.height) :
    get_cell b x y = some (cellD b x y) := by
  unfold cellD get_cell
  cases hg : b.cells.get? (x + y * b.width) with
  | some c => simp
  | none =>
    rw [List.get?_eq_none] at hg
    have hlt : x + y * b.width < b.cells.length := by rw [hwf]; exact idx_lt hx hy
    exact absurd hg (Nat.not_le.mpr hlt)

/-- On a well-formed board an in-bounds set_cell writes the cell. -/
theorem set_cell_ok {b : Conway} (hwf : WF b) {x y : Nat}
    (hx : x < b.width) (hy : y < b.height) (s : CellState) :
    set_cell b x y s
      = RResult.ok { b with cells := b.cells.set (x + y * b.width) s } := by
  have hlt : x + y * b.width < b.cells.length := by rw [hwf]; exact idx_lt hx hy
  unfold set_cell
  rw [if_neg (Nat.not_lt.mpr (Nat.le_of_lt hlt)), if_pos hlt]

/-- On a well-formed board an in-bounds neighbors call returns the loop count. -/
theorem neighbors_ok {b : Conway} (hwf : WF b) {x y : Nat}
    (hx : x < b.width) (hy : y < b.height) :
    neighbors b x y = RResult.ok (neighborCount b x y) := by
  unfold neighbors
  rw [get_cell_of_lt hwf hx hy]
  simp

/-- One scan step on a well-formed board appends the recorded transition. -/
theorem scanCell_ok {b : Conway} (hwf : WF b) {x y : Nat}
    (hx : x < b.width) (hy : y < b.height) (l : List (Nat × Nat × CellState)) :
    scanCell b x y l = RResult.ok (l ++ (changeAt b x y).toList) := by
  unfold scanCell
  rw [neighbors_ok hwf hx hy]
  simp only [bindR]
  rw [get_cell_of_lt hwf hx hy]
  unfold changeAt
  cases hc : cellChange (cellD b x y) (neighborCount b x y) with
  | none => simp [hc]
  | some s => simp [hc]

/-- The inner fold of the scan accumulates the per-row transitions. -/
theorem foldl_scan_row {b : Conway} (hwf : WF b) {y : Nat} (hy : y < b.height) :
    ∀ (xs : List Nat), (∀ x ∈ xs, x < b.width) → ∀ (l : List (Nat × Nat × CellState)),
    xs.foldl (fun a x => bindR a fun l2 => scanCell b x y l2) (RResult.ok l)
      = RResult.ok (l ++ xs.filterMap (fun x => changeAt b x y))
  | [], _, l => by simp
  | x :: xs, hxs, l => by
    rw [List.foldl_cons]
    have hstep : bindR (RResult.ok l) (fun l2 => scanCell b x y l2)
        = RResult.ok (l ++ (changeAt b x y).toList) :=
      scanCell_ok hwf (hxs x (by simp)) hy l
    rw [hstep]
    rw [foldl_scan_row hwf hy xs (fun x2 hx2 => hxs x2 (by simp [hx2])) _]
    rw [List.filterMap_cons]
    cases hc : changeAt b x y with
    | none => simp [hc]
    | some e => simp [hc]

/-- The outer fold of the scan accumulates all rows in order. -/
theorem foldl_scan_grid {b : Conway} (hwf : WF b) :
    ∀ (ys : List Nat), (∀ y ∈ ys, y < b.height) → ∀ (l : List (Nat × Nat × CellState)),
    ys.foldl (fun a y => scanRow b y a) (RResult.ok l)
      = RResult.ok (l ++ ys.flatMap
          (fun y => (List.range b.width).filterMap (fun x => changeAt b x y)))
  | [], _, l => by simp
  | y :: ys, hys, l => by
    rw [List.foldl_cons]
    have hrow : scanRow b y (RResult.ok l)
        = RResult.ok (l ++ (List.range b.width).filterMap (fun x => changeAt b x y)) := by
      unfold scanRow
      exact foldl_scan_row hwf (hys y (by simp)) (List.range b.width)
        (fun x hx => List.mem_range.mp hx) l
    rw [hrow]
    rw [foldl_scan_grid hwf ys (fun y2 h2 => hys y2 (by simp [h2])) _]
    simp [List.append_assoc]

/-- On a well-formed board the read-only scan of tick succeeds and collects
exactly the transition list changesOf. -/
theorem scanGrid_ok {b : Conway} (hwf : WF b) :
    scanGrid b = RResult.ok (changesOf b) := by
  unfold scanGrid changesOf
  rw [foldl_scan_grid hwf (List.range b.height) (fun y hy => List.mem_range.mp hy) []]
  simp

/-- The apply loop succeeds on in-bounds transitions and performs the
successive list writes of applyCells. -/
theorem applyChanges_ok :
    ∀ (l : List (Nat × Nat × CellState)) (b : Conway), WF b →
      (∀ e ∈ l, e.1 < b.width ∧ e.2.1 < b.height) →
      applyChanges b l = RResult.ok { b with cells := applyCells b.width b.cells l }
  | [], b, _, _ => rfl
  | (x, y, s) :: rest, b, hwf, hb => by
    have hx : x < b.width := (hb (x, y, s) (by simp)).1
    have hy : y < b.height := (hb (x, y, s) (by simp)).2
    have hcons : applyChanges b ((x, y, s) :: rest)
        = bindR (set_cell b x y s) (fun b2 => applyChanges b2 rest) := rfl
    rw [hcons, set_cell_ok hwf hx hy s]
    simp only [bindR]
    rw [applyChanges_ok rest { b with cells := b.cells.set (x + y * b.width) s }
      (by simp only [WF, List.length_set]; exact hwf)
      (fun e he => hb e (by simp [he]))]
    rfl

/-- What one position of the cell vector holds after the apply loop: the
state of the unique transition writing there, if any, else the old cell. -/
theorem applyCells_get? (w : Nat) :
    ∀ (l : List (Nat × Nat × CellState)) (cs : List CellState),
      (∀ e ∈ l, keyOf w e < cs.length) → ((l.map (keyOf w)).Nodup) →
      ∀ j, (applyCells w cs l).get? j
        = (match l.find? (fun e => keyOf w e == j) with
           | some e => some e.2.2
           | none => cs.get? j)
  | [], cs, _, _, j => by simp [applyCells]
  | e :: rest, cs, hbound, hnd, j => by
    have hstep : applyCells w cs (e :: rest)
        = applyCells w (cs.set (keyOf w e) e.2.2) rest := rfl
    have hbound2 : ∀ e2 ∈ rest, keyOf w e2 < (cs.set (keyOf w e) e.2.2).length := by
      intro e2 he2
      rw [List.length_set]
      exact hbound e2 (by simp [he2])
    have hnd0 : keyOf w e ∉ rest.map (keyOf w) ∧ (rest.map (keyOf w)).Nodup := by
      rw [List.map_cons, List.nodup_cons] at hnd
      exact hnd
    rw [hstep, applyCells_get? w rest _ hbound2 hnd0.2 j]
    by_cases hk : keyOf w e = j
    · have hfind : List.find? (fun e2 => keyOf w e2 == j) (e :: rest) = some e :=
        List.find?_cons_of_pos _ (by simp [hk])
      have hfind2 : rest.find? (fun e2 => keyOf w e2 == j) = none := by
        rw [List.find?_eq_none]
        intro e2 he2
        simp only [beq_iff_eq]
        intro hkey
        apply hnd0.1
        rw [hk, ← hkey]
        exact List.mem_map_of_mem (keyOf w) he2
      rw [hfind, hfind2]
      subst hk
      exact List.get?_set_eq_of_lt _ (hbound e (by simp))
    · have hfind : List.find? (fun e2 => keyOf w e2 == j) (e :: rest)
          = rest.find? (fun e2 => keyOf w e2 == j) :=
        List.find?_cons_of_neg _ (by simp [hk])
      rw [hfind]
      cases hf : rest.find? (fun e2 => keyOf w e2 == j) with
      | some e2 => rfl
      | none => exact List.get?_set_ne _ _ hk

/-- Membership in the collected transition list. -/
theorem mem_changesOf {b : Conway} {e : Nat × Nat × CellState} :
    e ∈ changesOf b ↔ ∃ y, y < b.height ∧ ∃ x, x < b.width ∧ changeAt b x y = some e := by
  unfold changesOf
  simp [List.mem_flatMap, List.mem_filterMap, List.mem_range]

/-- A recorded transition names its own coordinate and a real rule firing. -/
theorem changeAt_some {b : Conway} {x y : Nat} {e : Nat × Nat × CellState}
    (h : changeAt b x y = some e) :
    ∃ s, cellChange (cellD b x y) (neighborCount b x y) = some s ∧ e = (x, y, s) := by
  unfold changeAt at h
  cases hc : cellChange (cellD b x y) (neighborCount b x y) with
  | none => rw [hc] at h; exact Option.noConfusion h
  | some s =>
    rw [hc, Option.map_some'] at h
    exact ⟨s, rfl, (Option.some.inj h).symm⟩

/-- Every recorded transition is in bounds. -/
theorem changesOf_bounds {b : Conway} :
    ∀ e ∈ changesOf b, e.1 < b.width ∧ e.2.1 < b.height := by
  intro e he
  obtain ⟨y, hy, x, hx, hc⟩ := mem_changesOf.mp he
  obtain ⟨s, _, rfl⟩ := changeAt_some hc
  exact ⟨hx, hy⟩

/-- The write indices of the collected transitions are pairwise distinct
(in fact strictly increasing in scan order). -/
theorem changesOf_keys_nodup {b : Conway} :
    ((changesOf b).map (keyOf b.width)).Nodup := by
  have hpw : List.Pairwise (fun e1 e2 => keyOf b.width e1 < keyOf b.width e2)
      (changesOf b) := by
    unfold changesOf
    rw [List.pairwise_flatMap]
    constructor
    · intro y hy
      rw [List.pairwise_filterMap]
      apply (List.pairwise_lt_range b.width).imp
      intro x1 x2 hlt e1 he1 e2 he2
      rw [Option.mem_def] at he1 he2
      obtain ⟨s1, _, rfl⟩ := changeAt_some he1
      obtain ⟨s2, _, rfl⟩ := changeAt_some he2
      exact Nat.add_lt_add_right hlt (y * b.width)
    · apply (List.pairwise_lt_range b.height).imp
      intro y1 y2 hlt e1 he1 e2 he2
      rw [List.mem_filterMap] at he1 he2
      obtain ⟨x1, hx1, hc1⟩ := he1
      obtain ⟨x2, hx2, hc2⟩ := he2
      rw [List.mem_range] at hx1 hx2
      obtain ⟨s1, _, rfl⟩ := changeAt_some hc1
      obtain ⟨s2, _, rfl⟩ := changeAt_some hc2
      exact key_lt hx1 hlt
  exact List.Pairwise.map (keyOf b.width) (fun a c h => Nat.ne_of_lt h) hpw

/-- Characterization of tick on a well-formed board: it returns Ok, a flag
telling whether any transition was recorded, and the board postTick. -/
theorem tick_eq {b : Conway} (hwf : WF b) :
    tick b = RResult.ok (!(changesOf b).isEmpty, postTick b) := by
  unfold tick
  rw [scanGrid_ok hwf]
  simp only [bindR]
  cases hce : (changesOf b).isEmpty with
  | true =>
    have hnil : changesOf b = [] := List.isEmpty_iff.mp hce
    have hpost : postTick b = b := by
      unfold postTick
      rw [hnil]
      rfl
    rw [hpost]
    simp
  | false =>
    rw [if_neg (by simp)]
    rw [applyChanges_ok (changesOf b) b hwf changesOf_bounds]
    simp only [bindR, Bool.not_false]
    rfl

/-- find? by key returns the member carrying that key when keys are distinct. -/
theorem find?_eq_of_mem_of_nodup {α : Type} (f : α → Nat) :
    ∀ (l : List α), (l.map f).Nodup → ∀ e ∈ l, ∀ k, f e = k →
      l.find? (fun a => f a == k) = some e
  | [], _, e, he, _, _ => absurd he (List.not_mem_nil e)
  | a :: l, hnd, e, he, k, hk => by
    have hnd0 : f a ∉ l.map f ∧ (l.map f).Nodup := by
      rw [List.map_cons, List.nodup_cons] at hnd
      exact hnd
    rcases List.mem_cons.mp he with rfl | he2
    · exact List.find?_cons_of_pos _ (by simp [hk])
    · have hne : ¬ (f a == k) = true := by
        simp only [beq_iff_eq]
        intro hfa
        apply hnd0.1
        rw [hfa, ← hk]
        exact List.mem_map_of_mem f he2
      have hfind : List.find? (fun a2 => f a2 == k) (a :: l)
          = List.find? (fun a2 => f a2 == k) l :=
        List.find?_cons_of_neg _ hne
      rw [hfind]
      exact find?_eq_of_mem_of_nodup f l hnd0.2 e he2 k hk

/-- On a well-formed board, searching the transitions for the index of an
in-bounds coordinate finds exactly the transition recorded there. -/
theorem find?_changesOf {b : Conway} (hwf : WF b) {x y : Nat}
    (hx : x < b.width) (hy : y < b.height) :
    (changesOf b).find? (fun e => keyOf b.width e == x + y * b.width)
      = changeAt b x y := by
  cases hc : changeAt b x y with
  | some e =>
    obtain ⟨s, hcc, rfl⟩ := changeAt_some hc
    apply find?_eq_of_mem_of_nodup (keyOf b.width) (changesOf b) changesOf_keys_nodup
    · exact mem_changesOf.mpr ⟨y, hy, x, hx, hc⟩
    · rfl
  | none =>
    rw [List.find?_eq_none]
    intro e he
    simp only [beq_iff_eq]
    intro hkey
    obtain ⟨y2, hy2, x2, hx2, hc2⟩ := mem_changesOf.mp he
    obtain ⟨s2, hcc2, rfl⟩ := changeAt_some hc2
    simp only [keyOf] at hkey
    obtain ⟨hxe, hye⟩ := key_inj hx2 hx hkey
    subst hxe
    subst hye
    rw [hc] at hc2
    exact Option.noConfusion hc2

/-- The new state of every in-bounds cell after tick: the transition decided
by the old cell and the old neighbor count, or the old cell when none fired. -/
theorem postTick_get? {b : Conway} (hwf : WF b) {x y : Nat}
    (hx : x < b.width) (hy : y < b.height) :
    get_cell (postTick b) x y
      = some (match cellChange (cellD b x y) (neighborCount b x y) with
              | some s => s
              | none => cellD b x y) := by
  have hbound : ∀ e ∈ changesOf b, keyOf b.width e < b.cells.length := by
    intro e he
    rw [hwf]
    obtain ⟨y2, hy2, x2, hx2, hc2⟩ := mem_changesOf.mp he
    obtain ⟨s2, _, rfl⟩ := changeAt_some hc2
    exact idx_lt hx2 hy2
  show (applyCells b.width b.cells (changesOf b)).get? (x + y * b.width) = _
  rw [applyCells_get? b.width (changesOf b) b.cells hbound changesOf_keys_nodup
    (x + y * b.width)]
  rw [find?_changesOf hwf hx hy]
  cases hc : changeAt b x y with
  | some e =>
    obtain ⟨s, hcc, rfl⟩ := changeAt_some hc
    rw [hcc]
  | none =>
    unfold changeAt at hc
    cases hcc : cellChange (cellD b x y) (neighborCount b x y) with
    | some s =>
      rw [hcc, Option.map_some'] at hc
      exact Option.noConfusion hc
    | none =>
      have hgc := get_cell_of_lt hwf hx hy
      unfold get_cell at hgc
      exact hgc

/-- A recorded transition always flips the cell state. -/
theorem cellChange_ne {cell s : CellState} {n : Nat}
    (h : cellChange cell n = some s) : s ≠ cell := by
  cases cell with
  | Alive =>
    unfold cellChange at h
    by_cases hc : ¬ (2 ≤ n ∧ n ≤ 3)
    · rw [if_pos hc] at h
      obtain rfl : CellState.Dead = s := Option.some.inj h
      decide
    · rw [if_neg hc] at h
      exact Option.noConfusion h
  | Dead =>
    unfold cellChange at h
    by_cases hc : n = 3
    · rw [if_pos hc] at h
      obtain rfl : CellState.Alive = s := Option.some.inj h
      decide
    · rw [if_neg hc] at h
      exact Option.noConfusion h

/-- On an all-dead board every counting step leaves the accumulator alone. -/
theorem countStep_allDead {b : Conway} (hd : ∀ cell ∈ b.cells, cell = CellState.Dead)
    (x y : Nat) (acc : Nat) (off : Int × Int) : countStep b x y acc off = acc := by
  show (if ((x : Int) + off.1 < 0 ∨ (y : Int) + off.2 < 0) then acc
    else match get_cell b ((x : Int) + off.1).toNat ((y : Int) + off.2).toNat with
      | some CellState.Alive => acc + 1
      | some CellState.Dead => acc
      | none => acc) = acc
  by_cases hg : ((x : Int) + off.1 < 0 ∨ (y : Int) + off.2 < 0)
  · rw [if_pos hg]
  · rw [if_neg hg]
    cases hgc : get_cell b ((x : Int) + off.1).toNat ((y : Int) + off.2).toNat with
    | none => rfl
    | some c =>
      have hcd : c = CellState.Dead := hd c (List.get?_mem hgc)
      subst hcd
      rfl

/-- On an all-dead board every neighbor count is zero. -/
theorem neighborCount_allDead {b : Conway} (hd : ∀ cell ∈ b.cells, cell = CellState.Dead)
    (x y : Nat) : neighborCount b x y = 0 := by
  unfold neighborCount
  have haux : ∀ (offs : List (Int × Int)) (acc : Nat),
      offs.foldl (countStep b x y) acc = acc := by
    intro offs
    induction offs with
    | nil => intro acc; rfl
    | cons o os ih =>
      intro acc
      rw [List.foldl_cons, countStep_allDead hd x y acc o]
      exact ih acc
  exact haux NEIGHBOR_COORDINATES 0

/-- On an all-dead board every lookup reads Dead (or nothing). -/
theorem cellD_allDead {b : Conway} (hd : ∀ cell ∈ b.cells, cell = CellState.Dead)
    (x y : Nat) : cellD b x y = CellState.Dead := by
  unfold cellD
  cases hg : get_cell b x y with
  | none => rfl
  | some c => exact hd c (List.get?_mem hg)

/-- On an all-dead board the scan records no transition. -/
theorem changesOf_allDead {b : Conway} (hd : ∀ cell ∈ b.cells, cell = CellState.Dead) :
    changesOf b = [] := by
  rw [List.eq_nil_iff_forall_not_mem]
  intro e he
  obtain ⟨y, hy, x, hx, hc⟩ := mem_changesOf.mp he
  unfold changeAt at hc
  rw [cellD_allDead hd, neighborCount_allDead hd] at hc
  simp [cellChange] at hc

/-- C1: on a board whose cell vector length equals width * height, tick
returns Ok and computes the next generation simultaneously from the pre-tick
grid: for every in-bounds cell, the new state is the standard rule applied to
the old cell with the neighbor count of the pre-tick board - an alive cell
with a count outside 2..3 becomes Dead, a dead cell with count exactly 3
becomes Alive, and every other cell keeps its state. -/
theorem tick_next_generation (b : Conway)
    (hwf : b.cells.length = b.width * b.height) :
    ∃ c b2, tick b = RResult.ok (c, b2) ∧ b2.width = b.width ∧ b2.height = b.height ∧
      ∀ x y n cell, x < b.width → y < b.height →
        neighbors b x y = RResult.ok n → get_cell b x y = some cell →
        get_cell b2 x y = some (match cell with
          | CellState.Alive =>
            if ¬ (2 ≤ n ∧ n ≤ 3) then CellState.Dead else CellState.Alive
          | CellState.Dead =>
            if n = 3 then CellState.Alive else CellState.Dead) := by
  refine ⟨_, _, tick_eq hwf, rfl, rfl, ?_⟩
  intro x y n cell hx hy hn hcell
  rw [neighbors_ok hwf hx hy] at hn
  rw [get_cell_of_lt hwf hx hy] at hcell
  obtain rfl : n = neighborCount b x y := (RResult.ok.inj hn).symm
  obtain rfl : cell = cellD b x y := (Option.some.inj hcell).symm
  rw [postTick_get? hwf hx hy]
  unfold cellChange
  cases hcd : cellD b x y with
  | Alive =>
    by_cases hcn : 2 ≤ neighborCount b x y ∧ neighborCount b x y ≤ 3
    · simp [hcn]
    · simp [hcn]
  | Dead =>
    by_cases hcn : neighborCount b x y = 3
    · simp [hcn]
    · simp [hcn]

/-- Witness for C1: the wrapBoard is well-formed, tick returns Ok on it, and
the per-cell rule holds there. -/
theorem tick_next_generation_witness :
    ∃ c b2, tick wrapBoard = RResult.ok (c, b2) ∧ b2.width = wrapBoard.width ∧
      b2.height = wrapBoard.height ∧
      ∀ x y n cell, x < wrapBoard.width → y < wrapBoard.height →
        neighbors wrapBoard x y = RResult.ok n → get_cell wrapBoard x y = some cell →
        get_cell b2 x y = some (match cell with
          | CellState.Alive =>
            if ¬ (2 ≤ n ∧ n ≤ 3) then CellState.Dead else CellState.Alive
          | CellState.Dead =>
            if n = 3 then CellState.Alive else CellState.Dead) :=
  tick_next_generation wrapBoard (by decide)

/-- C10: on a board whose cell vector length equals width * height, tick
never errs and never aborts - the failure branches inside the scan, the
lookup and the apply phase are all unreachable. -/
theorem tick_total (b : Conway) (hwf : b.cells.length = b.width * b.height) :
    ∃ c b2, tick b = RResult.ok (c, b2) :=
  ⟨_, _, tick_eq hwf⟩

/-- Witness for C10: tick returns Ok on the well-formed wrapBoard. -/
theorem tick_total_witness : ∃ c b2, tick wrapBoard = RResult.ok (c, b2) :=
  tick_total wrapBoard (by decide)

/-- C6: on a well-formed board tick returns true exactly when some cell
changed between the generations, and an all-dead grid ticks to false with
the grid handed back untouched. -/
theorem tick_changed_iff (b : Conway)
    (hwf : b.cells.length = b.width * b.height) :
    (∀ c b2, tick b = RResult.ok (c, b2) → (c = true ↔ b2.cells ≠ b.cells)) ∧
    ((∀ cell ∈ b.cells, cell = CellState.Dead) → tick b = RResult.ok (false, b)) := by
  constructor
  · intro c b2 htick
    rw [tick_eq hwf] at htick
    have h1 := RResult.ok.inj htick
    rw [Prod.mk.injEq] at h1
    obtain ⟨hc, hb⟩ := h1
    subst hc
    subst hb
    constructor
    · intro hct hcells
      have hne : changesOf b ≠ [] := by
        intro hnil
        rw [hnil] at hct
        simp at hct
      obtain ⟨e, he⟩ := List.exists_mem_of_ne_nil _ hne
      obtain ⟨y, hy, x, hx, hce⟩ := mem_changesOf.mp he
      obtain ⟨s, hcc, rfl⟩ := changeAt_some hce
      have hnew : get_cell (postTick b) x y = some s := by
        rw [postTick_get? hwf hx hy, hcc]
      have hold : get_cell b x y = some (cellD b x y) := get_cell_of_lt hwf hx hy
      have hsame : get_cell (postTick b) x y = get_cell b x y := by
        unfold get_cell
        rw [hcells]
        rfl
      rw [hsame, hold] at hnew
      exact cellChange_ne hcc (Option.some.inj hnew).symm
    · intro hne
      cases hce : (changesOf b).isEmpty with
      | false => rfl
      | true =>
        exfalso
        apply hne
        have hnil : changesOf b = [] := List.isEmpty_iff.mp hce
        show (postTick b).cells = b.cells
        unfold postTick
        rw [hnil]
        rfl
  · intro hd
    rw [tick_eq hwf]
    have hnil : changesOf b = [] := changesOf_allDead hd
    have hpost : postTick b = b := by
      unfold postTick
      rw [hnil]
      rfl
    rw [hpost, hnil]
    rfl

/-- Witness for C6: instantiated on the well-formed 1 x 1 dead board. -/
theorem tick_changed_iff_witness :
    (∀ c b2, tick dead1 = RResult.ok (c, b2) → (c = true ↔ b2.cells ≠ dead1.cells)) ∧
    ((∀ cell ∈ dead1.cells, cell = CellState.Dead)
      → tick dead1 = RResult.ok (false, dead1)) :=
  tick_changed_iff dead1 (by decide)

/-- C2: neighbors does wrap at the right edge: on wrapBoard the live cell
(0, 1) is counted twice for (1, 0) - once as a true Moore neighbor and once
through the out-of-range candidate (2, 0), whose flat index 2 lands on it -
so the code returns 2 where the spec-modelled non-wrapping count is 1. -/
theorem neighbors_wraps_at_right_edge :
    neighbors wrapBoard 1 0 = RResult.ok 2 ∧ specNeighborCount wrapBoard 1 0 = 1 := by
  decide

/-- C3: set_cell tests the linear index with a strict greater-than against
the vector length, so index = width * height slips past the check and the
write aborts (index out of range) instead of returning the OutOfBounds error. -/
theorem set_cell_boundary_aborts :
    set_cell (Conway.new 2 2) 0 2 CellState.Alive = RResult.crash := by
  decide

/-- C4: revive_cell on (width, 0) of a 2 x 2 all-dead board does not fail:
the flat index width lands on the cell (0, 1), which gets revived, so the
call returns Ok and mutates the grid. -/
theorem revive_cell_width_zero_mutates :
    revive_cell (Conway.new 2 2) 2 0
      = RResult.ok { cells := [CellState.Dead, CellState.Dead,
          CellState.Alive, CellState.Dead], width := 2, height := 2 } := by
  decide

/-- C9: reviving an in-bounds cell that is already alive returns Ok with the
board unchanged - the redundancy is not an error. -/
theorem revive_cell_alive_noop (b : Conway) (x y : Nat)
    (hx : x < b.width) (hy : y < b.height)
    (halive : get_cell b x y = some CellState.Alive) :
    revive_cell b x y = RResult.ok b := by
  unfold get_cell at halive
  unfold revive_cell
  rw [halive]
  simp

/-- Witness for C9: on wrapBoard the cell (0, 1) is alive and revive_cell
returns Ok with the board unchanged. -/
theorem revive_cell_alive_noop_witness :
    revive_cell wrapBoard 0 1 = RResult.ok wrapBoard :=
  revive_cell_alive_noop wrapBoard 0 1 (by decide) (by decide) (by decide)

/-- C7: when tick reports false it has not touched the board - the change
list was empty and the early return hands back the board itself - so a second
tick returns false again on the identical board. -/
theorem tick_false_fixed_point (b b' : Conway)
    (h : tick b = RResult.ok (false, b')) :
    b' = b ∧ tick b' = RResult.ok (false, b') := by
  have hb : b' = b := by
    unfold tick at h
    cases hscan : scanGrid b with
    | ok l =>
      rw [hscan] at h
      by_cases hl : l.isEmpty
      · rw [show bindR (RResult.ok l) _ = _ from rfl] at h
        simp only [bindR, hl, if_true] at h
        cases h
        rfl
      · simp only [bindR, hl, if_false] at h
        cases happ : applyChanges b l with
        | ok b2 => rw [happ] at h; simp [bindR] at h
        | err e => rw [happ] at h; simp [bindR] at h
        | crash => rw [happ] at h; simp [bindR] at h
    | err e => rw [hscan] at h; simp [bindR] at h
    | crash => rw [hscan] at h; simp [bindR] at h
  subst hb
  exact ⟨rfl, h⟩

/-- Witness for C7: the 1 x 1 dead board ticks to false, and the theorem
instantiated there yields the repeat tick. -/
theorem tick_false_fixed_point_witness :
    dead1 = dead1 ∧ tick dead1 = RResult.ok (false, dead1) :=
  tick_false_fixed_point dead1 dead1 (by decide)

/-- On the full 1 x 1 board every pick is skipped (alive or out of range),
so the retry loop consumes the whole stream and keeps spinning. -/
theorem genInner_alive1_spins (picks : List (Nat × Nat)) :
    genInner alive1 picks = GenRes.spin := by
  induction picks with
  | nil => rfl
  | cons p rest ih =>
    obtain ⟨x, y⟩ := p
    cases hc : get_cell alive1 x y with
    | none =>
      simp only [genInner, hc]
      exact ih
    | some c =>
      have hcA : c = CellState.Alive := by
        unfold get_cell at hc
        simp only [alive1] at hc
        rcases Nat.eq_zero_or_pos (x + y * 1) with h0 | hpos
        · rw [h0] at hc
          simpa using hc.symm
        · have hnone : ([CellState.Alive].get? (x + y * 1)) = none :=
            List.get?_eq_none.mpr (by simp only [List.length_singleton]; omega)
          rw [hnone] at hc
          exact Option.noConfusion hc
      subst hcA
      simp only [genInner, hc]
      exact ih

/-- On the dead 1 x 1 board one pass of the retry loop either spins the whole
stream away or revives the single cell and returns the full board. -/
theorem genInner_dead1_cases (picks : List (Nat × Nat)) :
    genInner dead1 picks = GenRes.spin ∨
    ∃ rest, genInner dead1 picks = GenRes.ok alive1 rest := by
  induction picks with
  | nil => left; rfl
  | cons p rest ih =>
    obtain ⟨x, y⟩ := p
    cases hc : get_cell dead1 x y with
    | none =>
      rcases ih with h | ⟨r, h⟩
      · left
        simp only [genInner, hc]
        exact h
      · right
        exact ⟨r, by simp only [genInner, hc]; exact h⟩
    | some c =>
      have h0 : x = 0 ∧ y = 0 := by
        by_contra hcon
        have hpos : 1 ≤ x + y * 1 := by omega
        have hnone : ([CellState.Dead].get? (x + y * 1)) = none :=
          List.get?_eq_none.mpr (by simp only [List.length_singleton]; omega)
        unfold get_cell at hc
        simp only [dead1] at hc
        rw [hnone] at hc
        exact Option.noConfusion hc
      obtain ⟨hx0, hy0⟩ := h0
      subst hx0
      subst hy0
      right
      exact ⟨rest, rfl⟩

/-- Once the 1 x 1 board is full, every remaining requested cell spins. -/
theorem generate_board_alive1_spins (n : Nat) (picks : List (Nat × Nat)) :
    generate_board alive1 (n + 1) picks = GenRes.spin := by
  simp [generate_board, genInner_alive1_spins]

/-- C5: generate_board performs no capacity check: asked for 2 live cells on
a 1 x 1 board it never succeeds and never errs - whatever finite stream of
random picks the rng supplies, the retry loop consumes it entirely and is
still spinning (the running program loops forever). -/
theorem generate_board_overfull_spins (picks : List (Nat × Nat)) :
    generate_board (Conway.new 1 1) 2 picks = GenRes.spin := by
  have hnew : Conway.new 1 1 = dead1 := by decide
  rw [hnew]
  show generate_board dead1 (1 + 1) picks = GenRes.spin
  rcases genInner_dead1_cases picks with h | ⟨rest, h⟩
  · simp [generate_board, h]
  · simp only [generate_board, h]
    exact generate_board_alive1_spins 0 rest

/-- Cell vector of a predicate board, position by position. -/
theorem pboard_get? (P : Nat → Nat → Bool) (w h i : Nat) :
    (pboard P w h).cells.get? i
      = if i < w * h
        then some (if P (i % w) (i / w) then CellState.Alive else CellState.Dead)
        else none := by
  show ((List.range (w * h)).map
    (fun i => if P (i % w) (i / w) then CellState.Alive else CellState.Dead)).get? i = _
  by_cases hi : i < w * h
  · rw [if_pos hi, List.get?_map, List.get?_range hi]
    rfl
  · rw [if_neg hi]
    rw [List.get?_eq_none]
    rw [List.length_map, List.length_range]
    omega

/-- Predicate boards are well-formed. -/
theorem pboard_WF (P : Nat → Nat → Bool) (w h : Nat) : WF (pboard P w h) := by
  simp [WF, pboard]

/-- Coordinates below the width decode uniquely from the linear index. -/
theorem coord_mod_div {u w : Nat} (v : Nat) (hu : u < w) :
    (u + v * w) % w = u ∧ (u + v * w) / w = v := by
  constructor
  · rw [Nat.add_mul_mod_self_right, Nat.mod_eq_of_lt hu]
  · rw [Nat.add_mul_div_right _ _ (by omega), Nat.div_eq_of_lt hu]
    exact Nat.zero_add v

/-- The cell vector after the apply loop keeps its length. -/
theorem applyCells_length (w : Nat) :
    ∀ (l : List (Nat × Nat × CellState)) (cs : List CellState),
      (applyCells w cs l).length = cs.length
  | [], _ => rfl
  | e :: rest, cs => by
    have hstep : applyCells w cs (e :: rest)
        = applyCells w (cs.set (keyOf w e) e.2.2) rest := rfl
    rw [hstep, applyCells_length w rest _, List.length_set]

/-- On a large predicate board whose live set sits inside rows and columns
1..4, a lookup at any column up to width (one wrap step included) is alive
exactly when the predicate holds at the looked-up coordinate. -/
theorem pboard_alive_iff (P : Nat → Nat → Bool) {w h u v : Nat}
    (hu : u ≤ w)
    (hsupp : ∀ a c, P a c = true → 1 ≤ a ∧ a ≤ 4 ∧ 1 ≤ c ∧ c ≤ 4)
    (hw5 : 5 ≤ w) (hh5 : 5 ≤ h) :
    (get_cell (pboard P w h) u v = some CellState.Alive) ↔ P u v = true := by
  have hPfar : ∀ a c, (5 ≤ a ∨ 5 ≤ c ∨ a = 0 ∨ c = 0) → P a c = false := by
    intro a c hac
    cases hpac : P a c with
    | false => rfl
    | true =>
      have := hsupp a c hpac
      omega
  show (pboard P w h).cells.get? (u + v * (pboard P w h).width) = some CellState.Alive ↔ _
  have hwp : (pboard P w h).width = w := rfl
  rw [hwp, pboard_get? P w h (u + v * w)]
  rcases Nat.lt_or_ge u w with huw | hueq
  · rcases Nat.lt_or_ge v h with hvh | hvge
    · rw [if_pos (idx_lt huw hvh)]
      obtain ⟨hm, hd⟩ := coord_mod_div v huw
      rw [hm, hd]
      cases hP : P u v with
      | true => simp
      | false => simp
    · have hge : ¬ (u + v * w < w * h) := by
        have h1 : h * w ≤ v * w := Nat.mul_le_mul_right w hvge
        have h2 : v * w ≤ u + v * w := Nat.le_add_left _ _
        have h3 : w * h = h * w := Nat.mul_comm w h
        omega
      rw [if_neg hge]
      rw [hPfar u v (by omega)]
      simp
  · have huw : u = w := by omega
    have hid : u + v * w = (v + 1) * w := by rw [huw]; ring
    by_cases hlt : u + v * w < w * h
    · rw [if_pos hlt]
      have hm : (u + v * w) % w = 0 := by
        rw [hid, Nat.mul_mod_left]
      have hd : (u + v * w) / w = v + 1 := by
        rw [hid, Nat.mul_div_cancel _ (by omega)]
      rw [hm, hd]
      rw [hPfar 0 (v + 1) (by omega), hPfar u v (by omega)]
      simp
    · rw [if_neg hlt]
      rw [hPfar u v (by omega)]
      simp

/-- Evaluate one counting step into a pure Moore term, given the guard value,
the decoded candidate coordinate, and what an alive lookup there means. -/
theorem countStep_eval (b : Conway) (x y : Nat) (g : Bool) (u v : Nat) (dx dy : Int)
    (hg : ((x : Int) + dx < 0 ∨ (y : Int) + dy < 0) ↔ g = true)
    (hu : ((x : Int) + dx).toNat = u) (hv : ((y : Int) + dy).toNat = v)
    (P : Nat → Nat → Bool)
    (halive : g = false → (get_cell b u v = some CellState.Alive ↔ P u v = true))
    (acc : Nat) :
    countStep b x y acc (dx, dy) = acc + mTerm g P u v := by
  show (if ((x : Int) + dx < 0 ∨ (y : Int) + dy < 0) then acc
    else match get_cell b ((x : Int) + dx).toNat ((y : Int) + dy).toNat with
      | some CellState.Alive => acc + 1
      | some CellState.Dead => acc
      | none => acc) = acc + mTerm g P u v
  rw [hu, hv]
  cases g with
  | true =>
    rw [if_pos (hg.mpr rfl)]
    simp [mTerm]
  | false =>
    rw [if_neg (fun hcon => Bool.noConfusion (hg.mp hcon))]
    have hiff := halive rfl
    unfold mTerm
    rw [if_neg (by simp)]
    cases hP : P u v with
    | true =>
      rw [hiff.mpr hP]
      simp
    | false =>
      rw [if_neg (by simp)]
      cases hgc : get_cell b u v with
      | none => rfl
      | some c =>
        cases c with
        | Alive => exact absurd (hiff.mp hgc) (by simp [hP])
        | Dead => rfl

/-- The neighbor count of the code on a large predicate board with interior
support equals the pure Moore count: every wrap candidate lands on column 0
or outside the vector, where the predicate board is dead. -/
theorem neighborCount_pboard (P : Nat → Nat → Bool) {w h x y : Nat}
    (hw5 : 5 ≤ w) (hh5 : 5 ≤ h) (hx : x < w) (hy : y < h)
    (hsupp : ∀ a c, P a c = true → 1 ≤ a ∧ a ≤ 4 ∧ 1 ≤ c ∧ c ≤ 4) :
    neighborCount (pboard P w h) x y = mooreCnt P x y := by
  have halive : ∀ u v : Nat, u ≤ w →
      (get_cell (pboard P w h) u v = some CellState.Alive ↔ P u v = true) :=
    fun u v hu => pboard_alive_iff P hu hsupp hw5 hh5
  show List.foldl (countStep (pboard P w h) x y) 0
    [((-1 : Int), (-1 : Int)), (0, -1), (1, -1), (-1, 0), (1, 0), (-1, 1), (0, 1), (1, 1)] = _
  simp only [List.foldl_cons, List.foldl_nil]
  rw [countStep_eval (pboard P w h) x y (decide (x = 0 ∨ y = 0)) (x - 1) (y - 1) (-1) (-1)
    (by simp only [decide_eq_true_eq]; omega) (by omega) (by omega) P
    (fun _ => halive (x - 1) (y - 1) (by omega))]
  rw [countStep_eval (pboard P w h) x y (decide (y = 0)) x (y - 1) 0 (-1)
    (by simp only [decide_eq_true_eq]; omega) (by omega) (by omega) P
    (fun _ => halive x (y - 1) (by omega))]
  rw [countStep_eval (pboard P w h) x y (decide (y = 0)) (x + 1) (y - 1) 1 (-1)
    (by simp only [decide_eq_true_eq]; omega) (by omega) (by omega) P
    (fun _ => halive (x + 1) (y - 1) (by omega))]
  rw [countStep_eval (pboard P w h) x y (decide (x = 0)) (x - 1) y (-1) 0
    (by simp only [decide_eq_true_eq]; omega) (by omega) (by omega) P
    (fun _ => halive (x - 1) y (by omega))]
  rw [countStep_eval (pboard P w h) x y false (x + 1) y 1 0
    (Iff.intro (fun hcon => absurd hcon (by omega)) (fun hcon => Bool.noConfusion hcon))
    (by omega) (by omega) P (fun _ => halive (x + 1) y (by omega))]
  rw [countStep_eval (pboard P w h) x y (decide (x = 0)) (x - 1) (y + 1) (-1) 1
    (by simp only [decide_eq_true_eq]; omega) (by omega) (by omega) P
    (fun _ => halive (x - 1) (y + 1) (by omega))]
  rw [countStep_eval (pboard P w h) x y false x (y + 1) 0 1
    (Iff.intro (fun hcon => absurd hcon (by omega)) (fun hcon => Bool.noConfusion hcon))
    (by omega) (by omega) P (fun _ => halive x (y + 1) (by omega))]
  rw [countStep_eval (pboard P w h) x y false (x + 1) (y + 1) 1 1
    (Iff.intro (fun hcon => absurd hcon (by omega)) (fun hcon => Bool.noConfusion hcon))
    (by omega) (by omega) P (fun _ => halive (x + 1) (y + 1) (by omega))]
  unfold mooreCnt
  rw [Nat.zero_add]

/-- The stored cell of a predicate board at an in-bounds coordinate. -/
theorem cellD_pboard (P : Nat → Nat → Bool) {w h x y : Nat}
    (hx : x < w) (hy : y < h) :
    cellD (pboard P w h) x y
      = (if P x y then CellState.Alive else CellState.Dead) := by
  unfold cellD
  show ((pboard P w h).cells.get? (x + y * (pboard P w h).width)).getD CellState.Dead = _
  have hwp : (pboard P w h).width = w := rfl
  rw [hwp, pboard_get? P w h (x + y * w), if_pos (idx_lt hx hy)]
  obtain ⟨hm, hd⟩ := coord_mod_div y hx
  rw [hm, hd]
  rfl

/-- A Moore term vanishes when the predicate is dead at its candidate. -/
theorem mTerm_zero {P : Nat → Nat → Bool} {u v : Nat} (g : Bool) (h : P u v = false) :
    mTerm g P u v = 0 := by
  unfold mTerm
  rw [h]
  simp

/-- Far away from the support, the pure Moore count vanishes. -/
theorem mooreCnt_far (P : Nat → Nat → Bool)
    (hsupp : ∀ a c, P a c = true → 1 ≤ a ∧ a ≤ 4 ∧ 1 ≤ c ∧ c ≤ 4)
    {x y : Nat} (hfar : 6 ≤ x ∨ 6 ≤ y) : mooreCnt P x y = 0 := by
  have hP : ∀ u v : Nat, (5 ≤ u ∨ 5 ≤ v) → P u v = false := by
    intro u v huv
    cases hpuv : P u v with
    | false => rfl
    | true =>
      have := hsupp u v hpuv
      omega
  unfold mooreCnt
  rw [mTerm_zero _ (hP (x - 1) (y - 1) (by omega)), mTerm_zero _ (hP x (y - 1) (by omega)),
    mTerm_zero _ (hP (x + 1) (y - 1) (by omega)), mTerm_zero _ (hP (x - 1) y (by omega)),
    mTerm_zero _ (hP (x + 1) y (by omega)), mTerm_zero _ (hP (x - 1) (y + 1) (by omega)),
    mTerm_zero _ (hP x (y + 1) (by omega)), mTerm_zero _ (hP (x + 1) (y + 1) (by omega))]

/-- The horizontal Blinker support sits inside rows and columns 1..4. -/
theorem blinkH_supp : ∀ a c : Nat, blinkH a c = true → 1 ≤ a ∧ a ≤ 4 ∧ 1 ≤ c ∧ c ≤ 4 := by
  intro a c h
  unfold blinkH at h
  rw [decide_eq_true_eq] at h
  omega

/-- The vertical Blinker support sits inside rows and columns 1..4. -/
theorem blinkV_supp : ∀ a c : Nat, blinkV a c = true → 1 ≤ a ∧ a ≤ 4 ∧ 1 ≤ c ∧ c ≤ 4 := by
  intro a c h
  unfold blinkV at h
  rw [decide_eq_true_eq] at h
  omega

/-- One pure step turns the horizontal Blinker into the vertical one. -/
theorem stepOf_blinkH (x y : Nat) :
    stepOf blinkH x y = (if blinkV x y then CellState.Alive else CellState.Dead) := by
  by_cases hx : x ≤ 5
  · by_cases hy : y ≤ 5
    · interval_cases x <;> interval_cases y <;> decide
    · have h0 : mooreCnt blinkH x y = 0 :=
        mooreCnt_far blinkH blinkH_supp (Or.inr (by omega))
      have hPf : blinkH x y = false := by
        unfold blinkH
        rw [decide_eq_false_iff_not]
        omega
      have hQf : blinkV x y = false := by
        unfold blinkV
        rw [decide_eq_false_iff_not]
        omega
      unfold stepOf
      rw [h0, hPf, hQf]
      rfl
  · have h0 : mooreCnt blinkH x y = 0 :=
      mooreCnt_far blinkH blinkH_supp (Or.inl (by omega))
    have hPf : blinkH x y = false := by
      unfold blinkH
      rw [decide_eq_false_iff_not]
      omega
    have hQf : blinkV x y = false := by
      unfold blinkV
      rw [decide_eq_false_iff_not]
      omega
    unfold stepOf
    rw [h0, hPf, hQf]
    rfl

/-- One pure step turns the vertical Blinker back into the horizontal one. -/
theorem stepOf_blinkV (x y : Nat) :
    stepOf blinkV x y = (if blinkH x y then CellState.Alive else CellState.Dead) := by
  by_cases hx : x ≤ 5
  · by_cases hy : y ≤ 5
    · interval_cases x <;> interval_cases y <;> decide
    · have h0 : mooreCnt blinkV x y = 0 :=
        mooreCnt_far blinkV blinkV_supp (Or.inr (by omega))
      have hPf : blinkV x y = false := by
        unfold blinkV
        rw [decide_eq_false_iff_not]
        omega
      have hQf : blinkH x y = false := by
        unfold blinkH
        rw [decide_eq_false_iff_not]
        omega
      unfold stepOf
      rw [h0, hPf, hQf]
      rfl
  · have h0 : mooreCnt blinkV x y = 0 :=
      mooreCnt_far blinkV blinkV_supp (Or.inl (by omega))
    have hPf : blinkV x y = false := by
      unfold blinkV
      rw [decide_eq_false_iff_not]
      omega
    have hQf : blinkH x y = false := by
      unfold blinkH
      rw [decide_eq_false_iff_not]
      omega
    unfold stepOf
    rw [h0, hPf, hQf]
    rfl

/-- tick maps one interior-support predicate board to another whenever the
pure step sends the first live set to the second and the two sets differ
somewhere on the grid. -/
theorem tick_pboard (P Q : Nat → Nat → Bool) {w h : Nat} (hw5 : 5 ≤ w) (hh5 : 5 ≤ h)
    (hsupp : ∀ a c, P a c = true → 1 ≤ a ∧ a ≤ 4 ∧ 1 ≤ c ∧ c ≤ 4)
    (hstep : ∀ x y, stepOf P x y = (if Q x y then CellState.Alive else CellState.Dead))
    (hdiff : ∃ x0 y0, x0 < w ∧ y0 < h ∧ P x0 y0 ≠ Q x0 y0) :
    tick (pboard P w h) = RResult.ok (true, pboard Q w h) := by
  have hwf : WF (pboard P w h) := pboard_WF P w h
  have hcells : (postTick (pboard P w h)).cells = (pboard Q w h).cells := by
    apply List.ext_get?
    intro j
    by_cases hj : j < w * h
    · have hxw : j % w < w := Nat.mod_lt _ (by omega)
      have hyh : j / w < h := by
        rw [Nat.div_lt_iff_lt_mul (by omega : 0 < w)]
        calc j < w * h := hj
          _ = h * w := Nat.mul_comm w h
      have hpt := postTick_get? hwf hxw hyh
      unfold get_cell at hpt
      rw [show (postTick (pboard P w h)).width = w from rfl] at hpt
      have hjeq : j % w + j / w * w = j := by
        calc j % w + j / w * w = w * (j / w) + j % w := by ring
          _ = j := Nat.div_add_mod j w
      rw [hjeq] at hpt
      rw [hpt, pboard_get? Q w h j, if_pos hj]
      rw [cellD_pboard P hxw hyh, neighborCount_pboard P hw5 hh5 hxw hyh hsupp]
      exact congrArg some (hstep (j % w) (j / w))
    · have hlen1 : (postTick (pboard P w h)).cells.length = w * h := by
        show (applyCells (pboard P w h).width (pboard P w h).cells
          (changesOf (pboard P w h))).length = w * h
        rw [applyCells_length]
        exact pboard_WF P w h
      have hlen2 : (pboard Q w h).cells.length = w * h := pboard_WF Q w h
      have h1 : (postTick (pboard P w h)).cells.get? j = none := by
        rw [List.get?_eq_none, hlen1]
        exact Nat.le_of_not_lt hj
      have h2 : (pboard Q w h).cells.get? j = none := by
        rw [List.get?_eq_none, hlen2]
        exact Nat.le_of_not_lt hj
      rw [h1, h2]
  have hb : postTick (pboard P w h) = pboard Q w h := by
    have hrepr : postTick (pboard P w h)
        = { cells := (postTick (pboard P w h)).cells, width := w, height := h } := rfl
    rw [hrepr, hcells]
    rfl
  have hflag : (changesOf (pboard P w h)).isEmpty = false := by
    cases hce : (changesOf (pboard P w h)).isEmpty with
    | false => rfl
    | true =>
      exfalso
      obtain ⟨x0, y0, hx0, hy0, hne⟩ := hdiff
      have hnil := List.isEmpty_iff.mp hce
      have hpp : postTick (pboard P w h) = pboard P w h := by
        unfold postTick
        rw [hnil]
        rfl
      have heq : pboard P w h = pboard Q w h := by rw [← hpp, hb]
      have hgc := congrArg (fun bb : Conway => bb.cells.get? (x0 + y0 * w)) heq
      simp only at hgc
      rw [pboard_get? P w h _, pboard_get? Q w h _, if_pos (idx_lt hx0 hy0),
        if_pos (idx_lt hx0 hy0)] at hgc
      obtain ⟨hm, hd⟩ := coord_mod_div y0 hx0
      rw [hm, hd] at hgc
      have hsome := Option.some.inj hgc
      apply hne
      cases hP0 : P x0 y0 with
      | true =>
        cases hQ0 : Q x0 y0 with
        | true => rfl
        | false =>
          rw [hP0, hQ0] at hsome
          simp at hsome
      | false =>
        cases hQ0 : Q x0 y0 with
        | true =>
          rw [hP0, hQ0] at hsome
          simp at hsome
        | false => rfl
  rw [tick_eq hwf, hflag, hb]
  rfl

/-- C8: on every board of at least 5 x 5 whose live cells are exactly the
three cells of Pattern::Blinker (all other cells dead), tick moves the grid
to the vertical Blinker and a second tick returns exactly the original grid:
the Blinker oscillates with period 2. -/
theorem blinker_period_two (w h : Nat) (hw : 5 ≤ w) (hh : 5 ≤ h) :
    (∀ x y, x < w → y < h →
      (get_cell (pboard blinkH w h) x y = some CellState.Alive
        ↔ (x, y) ∈ Pattern.coordinates Pattern.Blinker)) ∧
    ∃ b1, tick (pboard blinkH w h) = RResult.ok (true, b1) ∧
      tick b1 = RResult.ok (true, pboard blinkH w h) := by
  constructor
  · intro x y hx hy
    rw [pboard_alive_iff blinkH (Nat.le_of_lt hx) blinkH_supp hw hh]
    show blinkH x y = true ↔ (x, y) ∈ [((2 : Nat), (3 : Nat)), (3, 3), (4, 3)]
    unfold blinkH
    rw [decide_eq_true_eq]
    simp only [List.mem_cons, List.not_mem_nil, or_false, Prod.mk.injEq]
    omega
  · refine ⟨pboard blinkV w h, ?_, ?_⟩
    · exact tick_pboard blinkH blinkV hw hh blinkH_supp stepOf_blinkH
        ⟨2, 3, by omega, by omega, by decide⟩
    · exact tick_pboard blinkV blinkH hw hh blinkV_supp stepOf_blinkV
        ⟨2, 3, by omega, by omega, by decide⟩

/-- Witness for C8: the Blinker oscillation on the exact 5 x 5 board. -/
theorem blinker_period_two_witness :
    (∀ x y, x < 5 → y < 5 →
      (get_cell (pboard blinkH 5 5) x y = some CellState.Alive
        ↔ (x, y) ∈ Pattern.coordinates Pattern.Blinker)) ∧
    ∃ b1, tick (pboard blinkH 5 5) = RResult.ok (true, b1) ∧
      tick b1 = RResult.ok (true, pboard blinkH 5 5) :=
  blinker_period_two 5 5 (by decide) (by decide)
